import Mathlib

/-!
Shallow embedding of `src/main.cpp` of the duplicate-file finder
(Finding-duplicate-files-with-hashing).

The filesystem is modelled as immutable data: a directory is a list of
`DirEntry` values carrying the flags the program queries
(`is_regular_file()`, `is_symlink()`, whether stat/traversal throws) and
the underlying file (`path`, whether `std::ifstream` can open it, and its
byte content).  `std::hash<std::string>` is an unspecified but
deterministic function, so every definition is parametrised by
`hasher : List Nat → Nat` (a chunk of bytes to a 64-bit value; results are
reduced mod 2^64 where the C++ size_t arithmetic does).
-/

/-- Modulus of C++ `size_t` / `uintmax_t` arithmetic (64-bit). -/
def U64MOD : Nat := 2 ^ 64

/-- A regular file as the program sees it: its path (identity), whether
`std::ifstream` can open it, and its byte content (`content.length` is
what `entry.file_size()` / `fs::file_size` return). -/
structure FileEntry where
  path : String
  openable : Bool
  content : List Nat
deriving DecidableEq, Repr

/-- One entry yielded by `fs::recursive_directory_iterator`:
`isRegularFile` is `entry.is_regular_file()` (which follows symlinks),
`isSymlink` is `fs::is_symlink` (not consulted by the program), and
`statError` means traversing / stat'ing this entry throws
`fs::filesystem_error`. -/
structure DirEntry where
  file : FileEntry
  isRegularFile : Bool
  isSymlink : Bool
  statError : Bool
deriving DecidableEq, Repr

/-- `entry.file_size()` on the fixed filesystem model. -/
def sizeKey (f : FileEntry) : Nat := f.content.length

/-- The read/accumulate loop of `compute_hash` (main.cpp lines 41-60),
with an explicit structural-recursion bound `fuel`.  Every iteration of
the C++ loop that continues consumes at least one byte, so any
`fuel ≥ remaining.length` is enough; `hashLoop` below instantiates it so.
`remaining` is the unread tail of the file, `maxBytes` the `max_bytes`
argument (0 = unlimited), `totalRead`, `h1`, `h2` the loop state.
Each `file.read(buffer, to_read)` on a regular file returns
`min to_read remaining.length` bytes, and the stream stays good exactly
when the full `to_read` bytes were delivered. -/
def hashLoopF (hasher : List Nat → Nat) :
    Nat → List Nat → Nat → Nat → Nat → Nat → Nat × Nat
  | _, [], _, _, h1, h2 => (h1, h2)
  | 0, _ :: _, _, _, h1, h2 => (h1, h2)  -- never reached: fuel ≥ remaining.length
  | fuel + 1, x :: xs, maxBytes, totalRead, h1, h2 =>
    -- to_read = min(sizeof(buffer), max_bytes - total_read) when limited
    let toRead := if 0 < maxBytes then min 8192 (maxBytes - totalRead) else 8192
    let chunk := (x :: xs).take toRead
    let bytesRead := chunk.length
    if 0 < bytesRead then
      -- hash1 ^= hasher(chunk) + 0x9e3779b9 + (hash1 << 6) + (hash1 >> 2)
      let h1' := Nat.xor h1 ((hasher chunk + 0x9e3779b9 + h1 * 64 + h1 / 4) % U64MOD)
      -- hash2 ^= hasher(chunk) * 31 + hash2
      let h2' := Nat.xor h2 ((hasher chunk * 31 + h2) % U64MOD)
      let totalRead' := totalRead + bytesRead
      if 0 < maxBytes ∧ maxBytes ≤ totalRead' then (h1', h2')       -- break
      else if bytesRead < toRead then (h1', h2')                    -- stream hit EOF
      else hashLoopF hasher fuel ((x :: xs).drop toRead) maxBytes totalRead' h1' h2'
    else
      -- to_read = 0: the loop body reads nothing and the bottom break fires
      -- (0 < maxBytes ∧ maxBytes ≤ totalRead is forced here)
      (h1, h2)

/-- The loop of `compute_hash`, entered with the whole remaining file. -/
def hashLoop (hasher : List Nat → Nat) (remaining : List Nat)
    (maxBytes totalRead h1 h2 : Nat) : Nat × Nat :=
  hashLoopF hasher remaining.length remaining maxBytes totalRead h1 h2

/-- Hex digit characters, as `std::hex` prints them. -/
def hexChar (d : Nat) : Char :=
  if d = 0 then '0' else if d = 1 then '1' else if d = 2 then '2'
  else if d = 3 then '3' else if d = 4 then '4' else if d = 5 then '5'
  else if d = 6 then '6' else if d = 7 then '7' else if d = 8 then '8'
  else if d = 9 then '9' else if d = 10 then 'a' else if d = 11 then 'b'
  else if d = 12 then 'c' else if d = 13 then 'd' else if d = 14 then 'e'
  else 'f'

/-- Big-endian hex digits, with a structural-recursion bound `fuel`
(the digit count of `n` is at most `n + 1`, so `hexRepr` below never
exhausts it). -/
def hexReprF : Nat → Nat → List Char
  | 0, _ => []  -- never reached from hexRepr
  | fuel + 1, n => if n < 16 then [hexChar n] else hexReprF fuel (n / 16) ++ [hexChar (n % 16)]

/-- Big-endian hex digits of `n` (at least one digit, as `operator<<` prints). -/
def hexRepr (n : Nat) : List Char :=
  hexReprF (n + 1) n

/-- `std::setw(16)` with `std::setfill('0')`: zero-pad the hex digits to
width 16. -/
def pad16 (n : Nat) : List Char :=
  List.replicate (16 - (hexRepr n).length) '0' ++ hexRepr n

/-- `compute_hash(filepath, max_bytes)` (main.cpp lines 28-67): empty
string when the file cannot be opened, otherwise the two accumulators of
the read loop printed as two 16-hex-digit fields. -/
def compute_hash (hasher : List Nat → Nat) (f : FileEntry) (maxBytes : Nat) : String :=
  if f.openable then
    let hs := hashLoop hasher f.content maxBytes 0 0 0
    String.mk (pad16 hs.1 ++ pad16 hs.2)
  else ""

/-- The bounded hash step (`partial_hash` in the source):
`compute_hash(filepath, PARTIAL_READ_SIZE)` with `PARTIAL_READ_SIZE = 4096`. -/
def head_hash (hasher : List Nat → Nat) (f : FileEntry) : String :=
  compute_hash hasher f 4096

/-- `full_hash(filepath)`: `compute_hash` with `max_bytes = 0`, read all. -/
def full_hash (hasher : List Nat → Nat) (f : FileEntry) : String :=
  compute_hash hasher f 0

/-!
## Grouping maps

`std::unordered_map<K, std::vector<V>>` filled by `map[key].push_back(v)`
holds, for each key, the subsequence of inserted values with that key, in
insertion order.  Its iteration order is unspecified; we model it as the
keys in first-insertion order, each paired with its vector.
-/

/-- First-occurrence key accumulator: the set of keys seen so far, in
order of first insertion. -/
def insertKey {κ : Type} [DecidableEq κ] (k : κ) (ks : List κ) : List κ :=
  if k ∈ ks then ks else ks ++ [k]

/-- The distinct keys of `xs.map f`, in first-occurrence order. -/
def keysOf {α κ : Type} [DecidableEq κ] (f : α → κ) (xs : List α) : List κ :=
  xs.foldl (fun ks x => insertKey (f x) ks) []

/-- The key → vector map built by `for (x : xs) map[f x].push_back(x)`:
for each distinct key, the values mapping to it, in insertion order. -/
def groupPairsBy {α κ : Type} [DecidableEq κ] (f : α → κ) (xs : List α) :
    List (κ × List α) :=
  (keysOf f xs).map (fun k => (k, xs.filter (fun x => decide (f x = k))))

/-!
## Phase 1: group_by_size (main.cpp lines 82-102)
-/

/-- The `recursive_directory_iterator` loop of `group_by_size`
(lines 85-90): collect `entry.path()` (with its file) for every entry
with `entry.is_regular_file()`.  Stat/traversal errors throw
`fs::filesystem_error`, which nothing catches, so the scan aborts at the
first erroring entry (`Except.error`). -/
def scanRegulars (entries : List DirEntry) : Except Unit (List FileEntry) :=
  match entries with
  | [] => .ok []
  | e :: rest =>
    if e.statError then .error ()
    else
      match scanRegulars rest with
      | .error u => .error u
      | .ok fs => .ok (if e.isRegularFile then e.file :: fs else fs)

/-- `group_by_size` (lines 82-102): partition the scanned regular files
by `entry.file_size()`, then erase every group with fewer than 2 files. -/
def group_by_size (entries : List DirEntry) : Except Unit (List (Nat × List FileEntry)) :=
  match scanRegulars entries with
  | .error u => .error u
  | .ok files =>
      .ok ((groupPairsBy sizeKey files).filter (fun g => !(decide (g.2.length < 2))))

/-!
## Phase 2: two-step hashing (main.cpp lines 111-168)
-/

/-- Step A (lines 131-138): `partial_groups[partial_hash(path)].push_back(path)`,
skipping files whose hash came back empty (unopenable). -/
def headGroupsOf (hasher : List Nat → Nat) (paths : List FileEntry) :
    List (String × List FileEntry) :=
  groupPairsBy (head_hash hasher)
    (paths.filter (fun f => !(decide (head_hash hasher f = ""))))

/-- Step B (lines 143-164) applied to one Step-A candidate vector: skip
it when it has fewer than 2 files; otherwise group by `full_hash`
(again skipping empty hashes) and keep the groups with at least 2 files. -/
def refineCandidates (hasher : List Nat → Nat) (candidates : List FileEntry) :
    List (List FileEntry) :=
  if candidates.length < 2 then []
  else
    ((groupPairsBy (full_hash hasher)
        (candidates.filter (fun f => !(decide (full_hash hasher f = ""))))).filter
      (fun g => decide (2 ≤ g.2.length))).map (fun g => g.2)

/-- Phase 2 on one size group's path vector. -/
def refineSizeGroup (hasher : List Nat → Nat) (paths : List FileEntry) :
    List (List FileEntry) :=
  ((headGroupsOf hasher paths).map (fun pg => refineCandidates hasher pg.2)).flatten

/-- `find_duplicates` (lines 111-168): phase 1 then phase 2 over every
surviving size group, collecting the confirmed duplicate vectors. -/
def find_duplicates (hasher : List Nat → Nat) (entries : List DirEntry) :
    Except Unit (List (List FileEntry)) :=
  match group_by_size entries with
  | .error u => .error u
  | .ok sizeGroups =>
      .ok ((sizeGroups.map (fun sg => refineSizeGroup hasher sg.2)).flatten)

/-!
## Reporting (main.cpp lines 231-248)
-/

/-- `fs::file_size(group[0])` of the reporting loop (groups are never
empty there; 0 for the impossible empty case). -/
def firstSize : List FileEntry → Nat
  | [] => 0
  | f :: _ => f.content.length

/-- `uintmax_t wasted = file_size * (group.size() - 1)` (line 236),
in 64-bit unsigned arithmetic. -/
def wastedOf (g : List FileEntry) : Nat :=
  (firstSize g * (g.length - 1)) % U64MOD

/-- `total_wasted += wasted` accumulated over the reporting loop
(lines 231-237), in 64-bit unsigned arithmetic. -/
def totalWasted (groups : List (List FileEntry)) : Nat :=
  groups.foldl (fun t g => (t + wastedOf g) % U64MOD) 0

deriving instance DecidableEq for Except

/-!
## Concrete fixtures (used by witnesses and counterexamples)
-/

/-- A concrete stand-in for `std::hash<std::string>`: any deterministic
function of the chunk contents. -/
def hasher0 (l : List Nat) : Nat :=
  l.foldl (fun a b => (a * 131 + b + 1) % U64MOD) 7

/-- Sample file: 3 bytes, openable. -/
def fileA : FileEntry := ⟨"dir/a.bin", true, [1, 2, 3]⟩

/-- Sample file: same content as `fileA`, different path. -/
def fileB : FileEntry := ⟨"dir/b.bin", true, [1, 2, 3]⟩

/-- Sample file: same size as `fileA`/`fileB`, different content. -/
def fileC : FileEntry := ⟨"dir/c.bin", true, [9, 9, 9]⟩

/-- Sample file that cannot be opened (same size as the others). -/
def fileU : FileEntry := ⟨"dir/locked.bin", false, [1, 2, 3]⟩

/-- Directory entries for the sample files. -/
def entryA : DirEntry := ⟨fileA, true, false, false⟩

def entryB : DirEntry := ⟨fileB, true, false, false⟩

def entryC : DirEntry := ⟨fileC, true, false, false⟩

def entryU : DirEntry := ⟨fileU, true, false, false⟩

/-- An entry whose stat/traversal throws `fs::filesystem_error`. -/
def entryBad : DirEntry := ⟨⟨"dir/forbidden", true, [5]⟩, true, false, true⟩

/-- A symlink whose target is a regular file: `is_symlink()` is true and
`entry.is_regular_file()` (which follows the link) is also true. -/
def entrySym : DirEntry := ⟨⟨"dir/link-to-real", true, [7]⟩, true, true, false⟩

/-- A plain regular file of the same size as `entrySym`'s target. -/
def entryReal : DirEntry := ⟨⟨"dir/real", true, [7]⟩, true, false, false⟩

/-!
## Lemmas about the grouping map model
-/

theorem mem_insertKey {κ : Type} [DecidableEq κ] (a k : κ) (ks : List κ) :
    a ∈ insertKey k ks ↔ a ∈ ks ∨ a = k := by
  by_cases h : k ∈ ks
  · simp only [insertKey, if_pos h]
    exact ⟨Or.inl, fun hor => hor.elim id (fun he => he ▸ h)⟩
  · simp [insertKey, if_neg h]

theorem mem_keysOf_foldl {α κ : Type} [DecidableEq κ] (f : α → κ) :
    ∀ (xs : List α) (acc : List κ) (k : κ),
      k ∈ xs.foldl (fun ks x => insertKey (f x) ks) acc ↔ k ∈ acc ∨ ∃ x ∈ xs, f x = k := by
  intro xs
  induction xs with
  | nil => intro acc k; simp
  | cons x xs ih =>
    intro acc k
    rw [List.foldl_cons, ih, mem_insertKey]
    constructor
    · rintro ((hacc | heq) | hex)
      · exact Or.inl hacc
      · exact Or.inr ⟨x, List.mem_cons_self x xs, heq.symm⟩
      · obtain ⟨y, hy, hfy⟩ := hex
        exact Or.inr ⟨y, List.mem_cons_of_mem x hy, hfy⟩
    · rintro (hacc | ⟨y, hy, hfy⟩)
      · exact Or.inl (Or.inl hacc)
      · rcases List.mem_cons.mp hy with rfl | hy'
        · exact Or.inl (Or.inr hfy.symm)
        · exact Or.inr ⟨y, hy', hfy⟩

theorem mem_keysOf {α κ : Type} [DecidableEq κ] (f : α → κ) (xs : List α) (k : κ) :
    k ∈ keysOf f xs ↔ ∃ x ∈ xs, f x = k := by
  unfold keysOf
  rw [mem_keysOf_foldl]
  simp

theorem groupPairsBy_eq_filter {α κ : Type} [DecidableEq κ] (f : α → κ) (xs : List α)
    (k : κ) (l : List α) (h : (k, l) ∈ groupPairsBy f xs) :
    l = xs.filter (fun x => decide (f x = k)) := by
  unfold groupPairsBy at h
  obtain ⟨k', _hk', heq⟩ := List.mem_map.mp h
  injection heq with h1 h2
  subst h1
  exact h2.symm

theorem mem_groupPairsBy_self {α κ : Type} [DecidableEq κ] (f : α → κ) (xs : List α) (x : α)
    (hx : x ∈ xs) :
    (f x, xs.filter (fun y => decide (f y = f x))) ∈ groupPairsBy f xs := by
  unfold groupPairsBy
  exact List.mem_map.mpr ⟨f x, (mem_keysOf f xs (f x)).mpr ⟨x, hx, rfl⟩, rfl⟩

theorem mem_filter_key_self {α κ : Type} [DecidableEq κ] (f : α → κ) (xs : List α) (x : α)
    (hx : x ∈ xs) : x ∈ xs.filter (fun y => decide (f y = f x)) :=
  List.mem_filter.mpr ⟨hx, by simp⟩

theorem mem_filter_key {α κ : Type} [DecidableEq κ] (f : α → κ) (xs : List α) (k : κ) (y : α)
    (hy : y ∈ xs.filter (fun x => decide (f x = k))) : y ∈ xs ∧ f y = k := by
  have := List.mem_filter.mp hy
  simpa using this

theorem two_le_length_of_mem_ne {α : Type} (l : List α) (a b : α)
    (ha : a ∈ l) (hb : b ∈ l) (hab : a ≠ b) : 2 ≤ l.length := by
  rcases l with _ | ⟨x, xs⟩
  · cases ha
  · rcases xs with _ | ⟨y, ys⟩
    · simp only [List.mem_singleton] at ha hb
      exact absurd (ha.trans hb.symm) hab
    · simp only [List.length_cons]
      omega

/-!
## Lemmas about the directory scan
-/

theorem scanRegulars_ok (entries : List DirEntry)
    (h : ∀ e ∈ entries, e.statError = false) :
    scanRegulars entries =
      Except.ok ((entries.filter (fun e => e.isRegularFile)).map (fun e => e.file)) := by
  induction entries with
  | nil => rfl
  | cons e rest ih =>
    have he : e.statError = false := h e (List.mem_cons_self e rest)
    have hrest : ∀ e' ∈ rest, e'.statError = false :=
      fun e' he' => h e' (List.mem_cons_of_mem e he')
    unfold scanRegulars
    rw [ih hrest]
    by_cases hr : e.isRegularFile
    · simp [he, hr, List.filter_cons]
    · simp [he, hr, List.filter_cons]

theorem scanRegulars_error_iff (entries : List DirEntry) :
    scanRegulars entries = Except.error () ↔ ∃ e ∈ entries, e.statError = true := by
  induction entries with
  | nil => simp [scanRegulars]
  | cons e rest ih =>
    by_cases he : e.statError
    · simp [scanRegulars, he]
    · rcases hrest : scanRegulars rest with u | fs
      · cases u
        have : ∃ e' ∈ rest, e'.statError = true := ih.mp hrest
        obtain ⟨e', he', hse'⟩ := this
        simp only [scanRegulars, he, if_false, hrest, Bool.false_eq_true]
        constructor
        · intro _
          exact ⟨e', List.mem_cons_of_mem e he', hse'⟩
        · intro _
          trivial
      · simp only [scanRegulars, he, if_false, hrest, Bool.false_eq_true]
        constructor
        · intro hcontra
          cases hcontra
        · rintro ⟨e', he', hse'⟩
          rcases List.mem_cons.mp he' with rfl | he''
          · exact absurd hse' (by simp [he])
          · exact absurd (ih.mpr ⟨e', he'', hse'⟩) (by simp [hrest])

theorem group_by_size_of_scan (entries : List DirEntry)
    (h : ∀ e ∈ entries, e.statError = false) :
    group_by_size entries =
      Except.ok ((groupPairsBy sizeKey
          ((entries.filter (fun e => e.isRegularFile)).map (fun e => e.file))).filter
        (fun g => !(decide (g.2.length < 2)))) := by
  unfold group_by_size
  rw [scanRegulars_ok entries h]

theorem group_by_size_error_iff (entries : List DirEntry) :
    group_by_size entries = Except.error () ↔ ∃ e ∈ entries, e.statError = true := by
  rw [← scanRegulars_error_iff]
  unfold group_by_size
  rcases hscan : scanRegulars entries with u | fs
  · cases u
    simp
  · simp

/-!
## Lemmas about the fingerprint
-/

theorem hexRepr_ne_nil (n : Nat) : hexRepr n ≠ [] := by
  unfold hexRepr hexReprF
  by_cases h : n < 16
  · simp [h]
  · simp [h]

theorem pad16_ne_nil (n : Nat) : pad16 n ≠ [] := by
  unfold pad16
  intro h
  rcases List.append_eq_nil.mp h with ⟨_, h2⟩
  exact hexRepr_ne_nil n h2

theorem compute_hash_not_openable (hasher : List Nat → Nat) (f : FileEntry) (m : Nat)
    (h : f.openable = false) : compute_hash hasher f m = "" := by
  simp [compute_hash, h]

theorem compute_hash_ne_empty (hasher : List Nat → Nat) (f : FileEntry) (m : Nat)
    (h : f.openable = true) : compute_hash hasher f m ≠ "" := by
  simp only [compute_hash, h, if_true]
  intro heq
  have hdata : pad16 (hashLoop hasher f.content m 0 0 0).1 ++
      pad16 (hashLoop hasher f.content m 0 0 0).2 = "".data := congrArg String.data heq
  rcases List.append_eq_nil.mp hdata with ⟨h1, _⟩
  exact pad16_ne_nil _ h1

theorem compute_hash_congr (hasher : List Nat → Nat) (f1 f2 : FileEntry) (m : Nat)
    (ho : f1.openable = f2.openable) (hc : f1.content = f2.content) :
    compute_hash hasher f1 m = compute_hash hasher f2 m := by
  unfold compute_hash hashLoop
  rw [ho, hc]

theorem openable_of_hash_ne_empty (hasher : List Nat → Nat) (f : FileEntry) (m : Nat)
    (h : compute_hash hasher f m ≠ "") : f.openable = true := by
  by_contra hno
  exact h (compute_hash_not_openable hasher f m (Bool.not_eq_true _ ▸ hno))

/-!
## Lemmas about the read loop: fuel irrelevance and the byte-limit
-/

theorem hashLoopF_nil (hasher : List Nat → Nat) (fuel m t h1 h2 : Nat) :
    hashLoopF hasher fuel [] m t h1 h2 = (h1, h2) := by
  cases fuel <;> rfl

theorem hashLoopF_cons (hasher : List Nat → Nat) (fuel : Nat) (x : Nat) (xs : List Nat)
    (m t h1 h2 : Nat) :
    hashLoopF hasher (fuel + 1) (x :: xs) m t h1 h2 =
      (let toRead := if 0 < m then min 8192 (m - t) else 8192
       let chunk := (x :: xs).take toRead
       let bytesRead := chunk.length
       if 0 < bytesRead then
         let h1' := Nat.xor h1 ((hasher chunk + 0x9e3779b9 + h1 * 64 + h1 / 4) % U64MOD)
         let h2' := Nat.xor h2 ((hasher chunk * 31 + h2) % U64MOD)
         let totalRead' := t + bytesRead
         if 0 < m ∧ m ≤ totalRead' then (h1', h2')
         else if bytesRead < toRead then (h1', h2')
         else hashLoopF hasher fuel ((x :: xs).drop toRead) m totalRead' h1' h2'
       else (h1, h2)) := rfl

theorem hashLoopF_fuel_eq (hasher : List Nat → Nat) :
    ∀ (fuel fuel' : Nat) (rem : List Nat) (m t h1 h2 : Nat),
      rem.length ≤ fuel → rem.length ≤ fuel' →
      hashLoopF hasher fuel rem m t h1 h2 = hashLoopF hasher fuel' rem m t h1 h2 := by
  intro fuel
  induction fuel with
  | zero =>
    intro fuel' rem m t h1 h2 hf _hf'
    have : rem = [] := List.eq_nil_of_length_eq_zero (Nat.le_zero.mp hf)
    subst this
    rw [hashLoopF_nil, hashLoopF_nil]
  | succ fuel ih =>
    intro fuel' rem m t h1 h2 hf hf'
    rcases rem with _ | ⟨x, xs⟩
    · rw [hashLoopF_nil, hashLoopF_nil]
    · rcases fuel' with _ | fuel''
      · simp at hf'
      · rw [hashLoopF_cons, hashLoopF_cons]
        dsimp only
        by_cases hb : 0 < ((x :: xs).take (if 0 < m then min 8192 (m - t) else 8192)).length
        · rw [if_pos hb, if_pos hb]
          by_cases hbreak :
              0 < m ∧ m ≤ t + ((x :: xs).take (if 0 < m then min 8192 (m - t) else 8192)).length
          · rw [if_pos hbreak, if_pos hbreak]
          · rw [if_neg hbreak, if_neg hbreak]
            by_cases hshort :
                ((x :: xs).take (if 0 < m then min 8192 (m - t) else 8192)).length <
                  (if 0 < m then min 8192 (m - t) else 8192)
            · rw [if_pos hshort, if_pos hshort]
            · rw [if_neg hshort, if_neg hshort]
              apply ih
              · have h1l := List.length_take_le (if 0 < m then min 8192 (m - t) else 8192) (x :: xs)
                have h2l := List.length_take (if 0 < m then min 8192 (m - t) else 8192) (x :: xs)
                simp only [List.length_drop, List.length_cons] at *
                omega
              · have h1l := List.length_take_le (if 0 < m then min 8192 (m - t) else 8192) (x :: xs)
                have h2l := List.length_take (if 0 < m then min 8192 (m - t) else 8192) (x :: xs)
                simp only [List.length_drop, List.length_cons] at *
                omega
        · rw [if_neg hb, if_neg hb]

theorem hashLoopF_zero_total (hasher : List Nat → Nat) :
    ∀ (fuel : Nat) (rem : List Nat) (t t' h1 h2 : Nat),
      hashLoopF hasher fuel rem 0 t h1 h2 = hashLoopF hasher fuel rem 0 t' h1 h2 := by
  intro fuel
  induction fuel with
  | zero =>
    intro rem t t' h1 h2
    rcases rem with _ | ⟨x, xs⟩
    · rw [hashLoopF_nil, hashLoopF_nil]
    · rfl
  | succ fuel ih =>
    intro rem t t' h1 h2
    rcases rem with _ | ⟨x, xs⟩
    · rw [hashLoopF_nil, hashLoopF_nil]
    · rw [hashLoopF_cons, hashLoopF_cons]
      simp only [Nat.lt_irrefl, if_false, false_and, Nat.le_zero]
      by_cases hb : 0 < ((x :: xs).take 8192).length
      · rw [if_pos hb, if_pos hb]
        by_cases hshort : ((x :: xs).take 8192).length < 8192
        · rw [if_pos hshort, if_pos hshort]
        · rw [if_neg hshort, if_neg hshort]
          exact ih _ _ _ _ _
      · rw [if_neg hb, if_neg hb]

theorem hashLoopF_limit (hasher : List Nat → Nat) :
    ∀ (fuel : Nat) (rem : List Nat) (t L h1 h2 : Nat),
      rem.length ≤ fuel → t < L →
      hashLoopF hasher fuel rem L t h1 h2 =
        hashLoopF hasher fuel (rem.take (L - t)) 0 0 h1 h2 := by
  intro fuel
  induction fuel with
  | zero =>
    intro rem t L h1 h2 hf _htL
    have : rem = [] := List.eq_nil_of_length_eq_zero (Nat.le_zero.mp hf)
    subst this
    simp only [List.take_nil]
    rw [hashLoopF_nil, hashLoopF_nil]
  | succ fuel ih =>
    intro rem t L h1 h2 hf htL
    rcases rem with _ | ⟨x, xs⟩
    · simp only [List.take_nil]
      rw [hashLoopF_nil, hashLoopF_nil]
    · have hL : 0 < L := by omega
      obtain ⟨d', hd⟩ : ∃ d', L - t = d' + 1 := ⟨L - t - 1, by omega⟩
      have htake : (x :: xs).take (L - t) = x :: xs.take d' := by rw [hd]; rfl
      rw [htake, hashLoopF_cons, hashLoopF_cons]
      dsimp only
      rw [if_pos hL]
      simp only [lt_self_iff_false, false_and, if_false, Nat.sub_zero, Nat.zero_add]
      have hchunk : (x :: xs.take d').take 8192 = (x :: xs).take (min 8192 (L - t)) := by
        rw [← htake, List.take_take]
      rw [hchunk]
      have hc : 0 < ((x :: xs).take (min 8192 (L - t))).length := by
        rw [List.length_take]
        simp only [List.length_cons]
        omega
      rw [if_pos hc, if_pos hc]
      have hclen : ((x :: xs).take (min 8192 (L - t))).length =
          min (min 8192 (L - t)) (xs.length + 1) := by
        rw [List.length_take]
        simp
      by_cases hbreak : L ≤ t + ((x :: xs).take (min 8192 (L - t))).length
      · rw [if_pos ⟨hL, hbreak⟩]
        by_cases hshortR : ((x :: xs).take (min 8192 (L - t))).length < 8192
        · rw [if_pos hshortR]
        · rw [if_neg hshortR]
          have hnil : (x :: xs.take d').drop 8192 = [] := by
            apply List.drop_eq_nil_of_le
            rw [← htake, List.length_take]
            simp only [List.length_cons]
            omega
          rw [hnil, hashLoopF_nil]
      · rw [if_neg (fun hand => hbreak hand.2)]
        by_cases hshort :
            ((x :: xs).take (min 8192 (L - t))).length < min 8192 (L - t)
        · rw [if_pos hshort]
          rw [if_pos (lt_of_lt_of_le hshort (min_le_left _ _))]
        · rw [if_neg hshort]
          -- the read was full; since the break did not fire, the chunk was 8192 bytes
          have hge : min 8192 (L - t) ≤ ((x :: xs).take (min 8192 (L - t))).length :=
            le_of_not_lt hshort
          have hle8 : ((x :: xs).take (min 8192 (L - t))).length ≤ min 8192 (L - t) :=
            List.length_take_le _ _
          have hmin : min 8192 (L - t) = 8192 := by
            rcases Nat.le_total 8192 (L - t) with hcmp | hcmp
            · exact min_eq_left hcmp
            · exfalso
              have h0 : min 8192 (L - t) = L - t := min_eq_right hcmp
              omega
          have hlen8192 : ((x :: xs).take (min 8192 (L - t))).length = 8192 := by omega
          have hnotshortR : ¬ ((x :: xs).take (min 8192 (L - t))).length < 8192 := by omega
          rw [if_neg hnotshortR]
          rw [hmin] at hlen8192 hbreak ⊢
          rw [hlen8192]
          have hdroptake : (x :: xs.take d').drop 8192 =
              ((x :: xs).drop 8192).take (L - (t + 8192)) := by
            rw [← htake, List.drop_take]
            have heq : L - t - 8192 = L - (t + 8192) := by omega
            rw [heq]
          rw [hdroptake]
          have hlendrop : ((x :: xs).drop 8192).length ≤ fuel := by
            rw [List.length_drop]
            simp only [List.length_cons] at hf ⊢
            omega
          have htL2 : t + 8192 < L := by omega
          rw [ih ((x :: xs).drop 8192) (t + 8192) L _ _ hlendrop htL2]
          exact hashLoopF_zero_total hasher fuel _ 0 8192 _ _

theorem hashLoop_limit (hasher : List Nat → Nat) (rem : List Nat) (L h1 h2 : Nat)
    (hL : 0 < L) :
    hashLoop hasher rem L 0 h1 h2 = hashLoop hasher (rem.take L) 0 0 h1 h2 := by
  unfold hashLoop
  have hlim := hashLoopF_limit hasher rem.length rem 0 L h1 h2 le_rfl hL
  rw [Nat.sub_zero] at hlim
  rw [hlim]
  exact hashLoopF_fuel_eq hasher rem.length (rem.take L).length (rem.take L) 0 0 h1 h2
    (by rw [List.length_take]; omega) le_rfl

theorem compute_hash_take (hasher : List Nat → Nat) (f : FileEntry) (L : Nat) (hL : 0 < L) :
    compute_hash hasher f L =
      compute_hash hasher ⟨f.path, f.openable, f.content.take L⟩ 0 := by
  unfold compute_hash
  rcases ho : f.openable with _ | _
  · simp [ho]
  · simp only [ho, if_true]
    rw [hashLoop_limit hasher f.content L 0 0 hL]

theorem head_hash_eq_full_of_small (hasher : List Nat → Nat) (f : FileEntry)
    (h : f.content.length ≤ 4096) : head_hash hasher f = full_hash hasher f := by
  unfold head_hash full_hash
  rw [compute_hash_take hasher f 4096 (by norm_num)]
  rw [List.take_of_length_le h]

/-!
## Lemmas about the two-step refinement
-/

theorem refineSizeGroup_pair_mem (hasher : List Nat → Nat) (paths : List FileEntry)
    (f1 f2 : FileEntry) (h1 : f1 ∈ paths) (h2 : f2 ∈ paths) (hne : f1 ≠ f2)
    (ho1 : f1.openable = true) (ho2 : f2.openable = true)
    (hc : f1.content = f2.content) :
    ∃ g ∈ refineSizeGroup hasher paths, f1 ∈ g ∧ f2 ∈ g := by
  have hhne1 : head_hash hasher f1 ≠ "" := compute_hash_ne_empty hasher f1 4096 ho1
  have hhne2 : head_hash hasher f2 ≠ "" := compute_hash_ne_empty hasher f2 4096 ho2
  have hf1l1 : f1 ∈ paths.filter (fun f => !(decide (head_hash hasher f = ""))) :=
    List.mem_filter.mpr ⟨h1, by simp [hhne1]⟩
  have hf2l1 : f2 ∈ paths.filter (fun f => !(decide (head_hash hasher f = ""))) :=
    List.mem_filter.mpr ⟨h2, by simp [hhne2]⟩
  have hkey : head_hash hasher f2 = head_hash hasher f1 :=
    compute_hash_congr hasher f2 f1 4096 (ho2.trans ho1.symm) hc.symm
  have hpg : (head_hash hasher f1,
      (paths.filter (fun f => !(decide (head_hash hasher f = "")))).filter
        (fun y => decide (head_hash hasher y = head_hash hasher f1))) ∈
      headGroupsOf hasher paths :=
    mem_groupPairsBy_self (head_hash hasher) _ f1 hf1l1
  have hf1c : f1 ∈ (paths.filter (fun f => !(decide (head_hash hasher f = "")))).filter
      (fun y => decide (head_hash hasher y = head_hash hasher f1)) :=
    mem_filter_key_self (head_hash hasher) _ f1 hf1l1
  have hf2c : f2 ∈ (paths.filter (fun f => !(decide (head_hash hasher f = "")))).filter
      (fun y => decide (head_hash hasher y = head_hash hasher f1)) :=
    List.mem_filter.mpr ⟨hf2l1, by simp [hkey]⟩
  have hlen : ¬ ((paths.filter (fun f => !(decide (head_hash hasher f = "")))).filter
      (fun y => decide (head_hash hasher y = head_hash hasher f1))).length < 2 := by
    have := two_le_length_of_mem_ne _ f1 f2 hf1c hf2c hne
    omega
  have hfne1 : full_hash hasher f1 ≠ "" := compute_hash_ne_empty hasher f1 0 ho1
  have hfne2 : full_hash hasher f2 ≠ "" := compute_hash_ne_empty hasher f2 0 ho2
  have hfkey : full_hash hasher f2 = full_hash hasher f1 :=
    compute_hash_congr hasher f2 f1 0 (ho2.trans ho1.symm) hc.symm
  -- the Step-B candidate vector of the Step-A group of f1
  set cands := (paths.filter (fun f => !(decide (head_hash hasher f = "")))).filter
      (fun y => decide (head_hash hasher y = head_hash hasher f1)) with hcands
  have hf1l2 : f1 ∈ cands.filter (fun f => !(decide (full_hash hasher f = ""))) :=
    List.mem_filter.mpr ⟨hf1c, by simp [hfne1]⟩
  have hf2l2 : f2 ∈ cands.filter (fun f => !(decide (full_hash hasher f = ""))) :=
    List.mem_filter.mpr ⟨hf2c, by simp [hfne2]⟩
  have hgmem : (full_hash hasher f1,
      (cands.filter (fun f => !(decide (full_hash hasher f = "")))).filter
        (fun y => decide (full_hash hasher y = full_hash hasher f1))) ∈
      groupPairsBy (full_hash hasher)
        (cands.filter (fun f => !(decide (full_hash hasher f = "")))) :=
    mem_groupPairsBy_self (full_hash hasher) _ f1 hf1l2
  have hf1g : f1 ∈ (cands.filter (fun f => !(decide (full_hash hasher f = "")))).filter
      (fun y => decide (full_hash hasher y = full_hash hasher f1)) :=
    mem_filter_key_self (full_hash hasher) _ f1 hf1l2
  have hf2g : f2 ∈ (cands.filter (fun f => !(decide (full_hash hasher f = "")))).filter
      (fun y => decide (full_hash hasher y = full_hash hasher f1)) :=
    List.mem_filter.mpr ⟨hf2l2, by simp [hfkey]⟩
  have hglen : 2 ≤ ((cands.filter (fun f => !(decide (full_hash hasher f = "")))).filter
      (fun y => decide (full_hash hasher y = full_hash hasher f1))).length :=
    two_le_length_of_mem_ne _ f1 f2 hf1g hf2g hne
  refine ⟨_, ?_, hf1g, hf2g⟩
  unfold refineSizeGroup
  rw [List.mem_flatten]
  refine ⟨refineCandidates hasher cands, List.mem_map.mpr ⟨(head_hash hasher f1, cands), hpg, rfl⟩, ?_⟩
  unfold refineCandidates
  rw [if_neg hlen]
  exact List.mem_map.mpr
    ⟨(full_hash hasher f1, _), List.mem_filter.mpr ⟨hgmem, by simpa using hglen⟩, rfl⟩

theorem refineSizeGroup_member_sub (hasher : List Nat → Nat) (paths : List FileEntry)
    (g : List FileEntry) (hg : g ∈ refineSizeGroup hasher paths) :
    (∀ y ∈ g, y ∈ paths ∧ y.openable = true) ∧ 2 ≤ g.length := by
  unfold refineSizeGroup at hg
  rw [List.mem_flatten] at hg
  obtain ⟨l, hl, hgl⟩ := hg
  obtain ⟨pg, hpg, rfl⟩ := List.mem_map.mp hl
  rcases pg with ⟨pk, pl⟩
  unfold refineCandidates at hgl
  by_cases hlen : pl.length < 2
  · rw [if_pos hlen] at hgl
    cases hgl
  · rw [if_neg hlen] at hgl
    obtain ⟨fg, hfg, rfl⟩ := List.mem_map.mp hgl
    rcases fg with ⟨fk, fl⟩
    have hfg' := List.mem_filter.mp hfg
    have hglen : 2 ≤ fl.length := by simpa using hfg'.2
    refine ⟨?_, hglen⟩
    intro y hy
    have hfilter := groupPairsBy_eq_filter (full_hash hasher) _ fk fl hfg'.1
    rw [hfilter] at hy
    obtain ⟨hyl2, _⟩ := mem_filter_key _ _ _ _ hy
    have hy2 := List.mem_filter.mp hyl2
    have hopen : y.openable = true :=
      openable_of_hash_ne_empty hasher y 0 (by simpa using hy2.2)
    have hycands : y ∈ pl := hy2.1
    unfold headGroupsOf at hpg
    have hpfilter := groupPairsBy_eq_filter (head_hash hasher) _ pk pl hpg
    rw [hpfilter] at hycands
    obtain ⟨hyl1, _⟩ := mem_filter_key _ _ _ _ hycands
    have hy1 := List.mem_filter.mp hyl1
    exact ⟨hy1.1, hopen⟩

theorem headGroupsOf_not_openable (hasher : List Nat → Nat) (paths : List FileEntry)
    (pg : String × List FileEntry) (hpg : pg ∈ headGroupsOf hasher paths)
    (f : FileEntry) (hf : f.openable = false) : f ∉ pg.2 := by
  rcases pg with ⟨pk, pl⟩
  unfold headGroupsOf at hpg
  have hfil := groupPairsBy_eq_filter (head_hash hasher) _ pk pl hpg
  intro hmem
  simp only at hmem
  rw [hfil] at hmem
  obtain ⟨hm, _⟩ := mem_filter_key _ _ _ _ hmem
  have hm' := List.mem_filter.mp hm
  have hne : head_hash hasher f ≠ "" := by simpa using hm'.2
  exact hne (compute_hash_not_openable hasher f 4096 hf)

/-!
## Lemmas inverting the pipeline output
-/

theorem group_by_size_inv (entries : List DirEntry) (sgs : List (Nat × List FileEntry))
    (hok : group_by_size entries = Except.ok sgs) :
    ∃ files, scanRegulars entries = Except.ok files ∧
      sgs = (groupPairsBy sizeKey files).filter (fun g => !(decide (g.2.length < 2))) := by
  unfold group_by_size at hok
  rcases hscan : scanRegulars entries with u | files
  · rw [hscan] at hok
    cases hok
  · rw [hscan] at hok
    injection hok with h
    exact ⟨files, rfl, h.symm⟩

theorem find_duplicates_inv (hasher : List Nat → Nat) (entries : List DirEntry)
    (groups : List (List FileEntry))
    (hok : find_duplicates hasher entries = Except.ok groups) :
    ∃ sgs, group_by_size entries = Except.ok sgs ∧
      groups = (sgs.map (fun sg => refineSizeGroup hasher sg.2)).flatten := by
  unfold find_duplicates at hok
  rcases hsz : group_by_size entries with u | sgs
  · rw [hsz] at hok
    cases hok
  · rw [hsz] at hok
    injection hok with h
    exact ⟨sgs, rfl, h.symm⟩

theorem sizeGroup_members (files : List FileEntry) (sg : Nat × List FileEntry)
    (hsg : sg ∈ (groupPairsBy sizeKey files).filter (fun g => !(decide (g.2.length < 2)))) :
    (∀ f ∈ sg.2, f ∈ files ∧ sizeKey f = sg.1) ∧ 2 ≤ sg.2.length := by
  have h1 := List.mem_filter.mp hsg
  rcases sg with ⟨k, l⟩
  have hfil := groupPairsBy_eq_filter sizeKey files k l h1.1
  constructor
  · intro f hf
    simp only at hfil hf ⊢
    rw [hfil] at hf
    exact mem_filter_key _ _ _ _ hf
  · have h2 := h1.2
    simp only [Bool.not_eq_true', decide_eq_false_iff_not, Nat.not_lt] at h2
    exact h2

theorem find_duplicates_group_origin (hasher : List Nat → Nat) (entries : List DirEntry)
    (groups : List (List FileEntry))
    (hok : find_duplicates hasher entries = Except.ok groups)
    (g : List FileEntry) (hg : g ∈ groups) :
    2 ≤ g.length ∧
    (∀ y ∈ g, y.openable = true) ∧
    (∃ s, ∀ y ∈ g, sizeKey y = s) := by
  obtain ⟨sgs, hsz, rfl⟩ := find_duplicates_inv hasher entries groups hok
  rw [List.mem_flatten] at hg
  obtain ⟨l, hl, hgl⟩ := hg
  obtain ⟨sg, hsg, rfl⟩ := List.mem_map.mp hl
  obtain ⟨files, _hscan, rfl⟩ := group_by_size_inv entries sgs hsz
  have hsub := refineSizeGroup_member_sub hasher sg.2 g hgl
  have hsizes := (sizeGroup_members files sg hsg).1
  refine ⟨hsub.2, fun y hy => (hsub.1 y hy).2, sg.1, fun y hy => ?_⟩
  exact (hsizes y (hsub.1 y hy).1).2

theorem find_duplicates_ok_of_scan (hasher : List Nat → Nat) (entries : List DirEntry)
    (h : ∀ e ∈ entries, e.statError = false) :
    find_duplicates hasher entries =
      Except.ok ((((groupPairsBy sizeKey
            ((entries.filter (fun e => e.isRegularFile)).map (fun e => e.file))).filter
          (fun g => !(decide (g.2.length < 2)))).map
        (fun sg => refineSizeGroup hasher sg.2)).flatten) := by
  unfold find_duplicates
  rw [group_by_size_of_scan entries h]

theorem pipeline_pair_mem (hasher : List Nat → Nat) (entries : List DirEntry)
    (e1 e2 : DirEntry)
    (hscan : ∀ e ∈ entries, e.statError = false)
    (h1 : e1 ∈ entries) (h2 : e2 ∈ entries)
    (hr1 : e1.isRegularFile = true) (hr2 : e2.isRegularFile = true)
    (ho1 : e1.file.openable = true) (ho2 : e2.file.openable = true)
    (hc : e1.file.content = e2.file.content) (hne : e1.file ≠ e2.file) :
    ∃ groups, find_duplicates hasher entries = Except.ok groups ∧
      ∃ g ∈ groups, e1.file ∈ g ∧ e2.file ∈ g := by
  have hf1 : e1.file ∈ (entries.filter (fun e => e.isRegularFile)).map (fun e => e.file) :=
    List.mem_map.mpr ⟨e1, List.mem_filter.mpr ⟨h1, by simp [hr1]⟩, rfl⟩
  have hf2 : e2.file ∈ (entries.filter (fun e => e.isRegularFile)).map (fun e => e.file) :=
    List.mem_map.mpr ⟨e2, List.mem_filter.mpr ⟨h2, by simp [hr2]⟩, rfl⟩
  have hsksize : sizeKey e2.file = sizeKey e1.file := by
    unfold sizeKey
    rw [hc]
  have hsg : (sizeKey e1.file,
      ((entries.filter (fun e => e.isRegularFile)).map (fun e => e.file)).filter
        (fun y => decide (sizeKey y = sizeKey e1.file))) ∈
      groupPairsBy sizeKey ((entries.filter (fun e => e.isRegularFile)).map (fun e => e.file)) :=
    mem_groupPairsBy_self sizeKey _ e1.file hf1
  have hm1 : e1.file ∈ ((entries.filter (fun e => e.isRegularFile)).map (fun e => e.file)).filter
      (fun y => decide (sizeKey y = sizeKey e1.file)) :=
    mem_filter_key_self sizeKey _ e1.file hf1
  have hm2 : e2.file ∈ ((entries.filter (fun e => e.isRegularFile)).map (fun e => e.file)).filter
      (fun y => decide (sizeKey y = sizeKey e1.file)) :=
    List.mem_filter.mpr ⟨hf2, by simp [hsksize]⟩
  have hlen : 2 ≤ (((entries.filter (fun e => e.isRegularFile)).map (fun e => e.file)).filter
      (fun y => decide (sizeKey y = sizeKey e1.file))).length :=
    two_le_length_of_mem_ne _ _ _ hm1 hm2 hne
  have hsg2 : (sizeKey e1.file,
      ((entries.filter (fun e => e.isRegularFile)).map (fun e => e.file)).filter
        (fun y => decide (sizeKey y = sizeKey e1.file))) ∈
      (groupPairsBy sizeKey
        ((entries.filter (fun e => e.isRegularFile)).map (fun e => e.file))).filter
        (fun g => !(decide (g.2.length < 2))) :=
    List.mem_filter.mpr ⟨hsg, by simp; omega⟩
  obtain ⟨g, hgmem, hg1, hg2⟩ := refineSizeGroup_pair_mem hasher
    (((entries.filter (fun e => e.isRegularFile)).map (fun e => e.file)).filter
      (fun y => decide (sizeKey y = sizeKey e1.file)))
    e1.file e2.file hm1 hm2 hne ho1 ho2 hc
  refine ⟨_, find_duplicates_ok_of_scan hasher entries hscan, g, ?_, hg1, hg2⟩
  rw [List.mem_flatten]
  exact ⟨refineSizeGroup hasher
      (((entries.filter (fun e => e.isRegularFile)).map (fun e => e.file)).filter
        (fun y => decide (sizeKey y = sizeKey e1.file))),
    List.mem_map.mpr ⟨_, hsg2, rfl⟩, hgmem⟩

/-!
## Lemmas about the reporting arithmetic
-/

theorem totalWasted_foldl (w : List FileEntry → Nat) :
    ∀ (groups : List (List FileEntry)) (a : Nat),
      groups.foldl (fun t g => (t + w g) % U64MOD) (a % U64MOD) =
        (a + (groups.map w).sum) % U64MOD := by
  intro groups
  induction groups with
  | nil => intro a; simp
  | cons g gs ih =>
    intro a
    rw [List.foldl_cons, Nat.mod_add_mod, ih (a + w g)]
    rw [List.map_cons, List.sum_cons]
    ring_nf

theorem totalWasted_eq_sum_mod (groups : List (List FileEntry)) :
    totalWasted groups = (groups.map wastedOf).sum % U64MOD := by
  unfold totalWasted
  have h := totalWasted_foldl wastedOf groups 0
  rw [Nat.zero_mod] at h
  rw [h]
  rw [Nat.zero_add]

theorem firstSize_of_all (g : List FileEntry) (s : Nat) (hne : g ≠ [])
    (hall : ∀ f ∈ g, sizeKey f = s) : firstSize g = s := by
  rcases g with _ | ⟨f, gs⟩
  · exact absurd rfl hne
  · exact hall f (List.mem_cons_self f gs)

/-!
## Lemmas: the fingerprint is always 32 hex characters when the file opens
-/

theorem hashLoopF_lt (hasher : List Nat → Nat) :
    ∀ (fuel : Nat) (rem : List Nat) (m t h1 h2 : Nat),
      h1 < U64MOD → h2 < U64MOD →
      (hashLoopF hasher fuel rem m t h1 h2).1 < U64MOD ∧
      (hashLoopF hasher fuel rem m t h1 h2).2 < U64MOD := by
  have hxor : ∀ a b : Nat, a < U64MOD → Nat.xor a (b % U64MOD) < U64MOD := by
    intro a b ha
    have hb : b % U64MOD < U64MOD := Nat.mod_lt _ (by unfold U64MOD; positivity)
    unfold U64MOD at ha hb ⊢
    exact Nat.xor_lt_two_pow ha hb
  intro fuel
  induction fuel with
  | zero =>
    intro rem m t h1 h2 hh1 hh2
    rcases rem with _ | ⟨x, xs⟩
    · rw [hashLoopF_nil]
      exact ⟨hh1, hh2⟩
    · exact ⟨hh1, hh2⟩
  | succ fuel ih =>
    intro rem m t h1 h2 hh1 hh2
    rcases rem with _ | ⟨x, xs⟩
    · rw [hashLoopF_nil]
      exact ⟨hh1, hh2⟩
    · rw [hashLoopF_cons]
      dsimp only
      by_cases hb : 0 < ((x :: xs).take (if 0 < m then min 8192 (m - t) else 8192)).length
      · rw [if_pos hb]
        by_cases hbreak : 0 < m ∧
            m ≤ t + ((x :: xs).take (if 0 < m then min 8192 (m - t) else 8192)).length
        · rw [if_pos hbreak]
          exact ⟨hxor _ _ hh1, hxor _ _ hh2⟩
        · rw [if_neg hbreak]
          by_cases hshort : ((x :: xs).take (if 0 < m then min 8192 (m - t) else 8192)).length <
              (if 0 < m then min 8192 (m - t) else 8192)
          · rw [if_pos hshort]
            exact ⟨hxor _ _ hh1, hxor _ _ hh2⟩
          · rw [if_neg hshort]
            exact ih _ _ _ _ _ (hxor _ _ hh1) (hxor _ _ hh2)
      · rw [if_neg hb]
        exact ⟨hh1, hh2⟩

theorem hexReprF_length_le :
    ∀ (fuel n k : Nat), 0 < k → n < 16 ^ k → (hexReprF fuel n).length ≤ k := by
  intro fuel
  induction fuel with
  | zero =>
    intro n k hk _hn
    simp [hexReprF]
  | succ fuel ih =>
    intro n k hk hn
    by_cases h : n < 16
    · simp [hexReprF, h]
      omega
    · simp only [hexReprF, h, if_false, List.length_append, List.length_singleton]
      have hk2 : 2 ≤ k := by
        by_contra hlt
        have hk1 : k = 1 := by omega
        rw [hk1, pow_one] at hn
        exact h hn
      have hdiv : n / 16 < 16 ^ (k - 1) := by
        apply Nat.div_lt_of_lt_mul
        have : 16 ^ k = 16 * 16 ^ (k - 1) := by
          rw [← pow_succ']
          congr 1
          omega
        omega
      have := ih (n / 16) (k - 1) (by omega) hdiv
      omega

theorem pad16_length (n : Nat) (h : n < U64MOD) : (pad16 n).length = 16 := by
  unfold pad16
  rw [List.length_append, List.length_replicate]
  have h16 : n < 16 ^ 16 := by
    unfold U64MOD at h
    have : (16:Nat) ^ 16 = 2 ^ 64 := by norm_num
    omega
  have := hexReprF_length_le (n + 1) n 16 (by norm_num) h16
  unfold hexRepr
  omega

theorem compute_hash_length (hasher : List Nat → Nat) (f : FileEntry) (m : Nat)
    (h : f.openable = true) : (compute_hash hasher f m).length = 32 := by
  unfold compute_hash
  rw [if_pos (by rw [h])]
  have hlt := hashLoopF_lt hasher f.content.length f.content m 0 0 0
    (by unfold U64MOD; positivity) (by unfold U64MOD; positivity)
  show (pad16 (hashLoop hasher f.content m 0 0 0).1 ++
      pad16 (hashLoop hasher f.content m 0 0 0).2).length = 32
  rw [List.length_append]
  unfold hashLoop
  rw [pad16_length _ hlt.1, pad16_length _ hlt.2]

/-!
## The exact output for a directory of exactly two identical files
-/

theorem groupPairsBy_pair {α κ : Type} [DecidableEq κ] (f : α → κ) (a b : α)
    (h : f a = f b) : groupPairsBy f [a, b] = [(f a, [a, b])] := by
  simp [groupPairsBy, keysOf, insertKey, h, List.filter]

theorem refineCandidates_pair (hasher : List Nat → Nat) (f1 f2 : FileEntry)
    (ho1 : f1.openable = true) (ho2 : f2.openable = true)
    (hc : f1.content = f2.content) :
    refineCandidates hasher [f1, f2] = [[f1, f2]] := by
  unfold refineCandidates
  rw [if_neg (by simp)]
  have hne1 : full_hash hasher f1 ≠ "" := compute_hash_ne_empty hasher f1 0 ho1
  have hne2 : full_hash hasher f2 ≠ "" := compute_hash_ne_empty hasher f2 0 ho2
  have hfeq : full_hash hasher f1 = full_hash hasher f2 :=
    compute_hash_congr hasher f1 f2 0 (ho1.trans ho2.symm) hc
  have hfil : [f1, f2].filter (fun f => !(decide (full_hash hasher f = ""))) = [f1, f2] := by
    simp [hne1, hne2]
  rw [hfil, groupPairsBy_pair (full_hash hasher) f1 f2 hfeq]
  simp

theorem headGroupsOf_pair (hasher : List Nat → Nat) (f1 f2 : FileEntry)
    (ho1 : f1.openable = true) (ho2 : f2.openable = true)
    (hc : f1.content = f2.content) :
    headGroupsOf hasher [f1, f2] = [(head_hash hasher f1, [f1, f2])] := by
  unfold headGroupsOf
  have hne1 : head_hash hasher f1 ≠ "" := compute_hash_ne_empty hasher f1 4096 ho1
  have hne2 : head_hash hasher f2 ≠ "" := compute_hash_ne_empty hasher f2 4096 ho2
  have hfeq : head_hash hasher f1 = head_hash hasher f2 :=
    compute_hash_congr hasher f1 f2 4096 (ho1.trans ho2.symm) hc
  have hfil : [f1, f2].filter (fun f => !(decide (head_hash hasher f = ""))) = [f1, f2] := by
    simp [hne1, hne2]
  rw [hfil, groupPairsBy_pair (head_hash hasher) f1 f2 hfeq]

theorem refineSizeGroup_pair (hasher : List Nat → Nat) (f1 f2 : FileEntry)
    (ho1 : f1.openable = true) (ho2 : f2.openable = true)
    (hc : f1.content = f2.content) :
    refineSizeGroup hasher [f1, f2] = [[f1, f2]] := by
  unfold refineSizeGroup
  rw [headGroupsOf_pair hasher f1 f2 ho1 ho2 hc]
  simp only [List.map_cons, List.map_nil]
  rw [refineCandidates_pair hasher f1 f2 ho1 ho2 hc]
  rfl

theorem find_duplicates_pair (hasher : List Nat → Nat) (e1 e2 : DirEntry)
    (hs1 : e1.statError = false) (hs2 : e2.statError = false)
    (hr1 : e1.isRegularFile = true) (hr2 : e2.isRegularFile = true)
    (ho1 : e1.file.openable = true) (ho2 : e2.file.openable = true)
    (hc : e1.file.content = e2.file.content) :
    find_duplicates hasher [e1, e2] = Except.ok [[e1.file, e2.file]] := by
  rw [find_duplicates_ok_of_scan hasher [e1, e2] (by
    intro e he
    rcases List.mem_cons.mp he with rfl | he'
    · exact hs1
    · rcases List.mem_cons.mp he' with rfl | he''
      · exact hs2
      · cases he'')]
  have hfil : [e1, e2].filter (fun e => e.isRegularFile) = [e1, e2] := by
    simp [hr1, hr2]
  rw [hfil]
  simp only [List.map_cons, List.map_nil]
  have hsz : sizeKey e1.file = sizeKey e2.file := by
    unfold sizeKey
    rw [hc]
  rw [groupPairsBy_pair sizeKey e1.file e2.file hsz]
  have hkeep : [(sizeKey e1.file, [e1.file, e2.file])].filter
      (fun g => !(decide (g.2.length < 2))) = [(sizeKey e1.file, [e1.file, e2.file])] := by
    simp
  rw [hkeep]
  simp only [List.map_cons, List.map_nil]
  rw [refineSizeGroup_pair hasher e1.file e2.file ho1 ho2 hc]
  rfl

/-!
## Claim theorems
-/

/-- **C1**: two files under the scanned root with identical byte content,
both openable at every fingerprinting step, end up in the same
DuplicateGroup of the output; and the fingerprint function is a
deterministic function of the byte content (identical byte sequences over
the same range give the identical fingerprint string). -/
theorem C1_identical_content_same_group (hasher : List Nat → Nat) (entries : List DirEntry)
    (e1 e2 : DirEntry)
    (hscan : ∀ e ∈ entries, e.statError = false)
    (h1 : e1 ∈ entries) (h2 : e2 ∈ entries)
    (hr1 : e1.isRegularFile = true) (hr2 : e2.isRegularFile = true)
    (ho1 : e1.file.openable = true) (ho2 : e2.file.openable = true)
    (hc : e1.file.content = e2.file.content) (hne : e1.file ≠ e2.file) :
    (∃ groups, find_duplicates hasher entries = Except.ok groups ∧
        ∃ g ∈ groups, e1.file ∈ g ∧ e2.file ∈ g) ∧
    (∀ (f1 f2 : FileEntry) (m : Nat), f1.openable = true → f2.openable = true →
        f1.content = f2.content →
        compute_hash hasher f1 m = compute_hash hasher f2 m) :=
  ⟨pipeline_pair_mem hasher entries e1 e2 hscan h1 h2 hr1 hr2 ho1 ho2 hc hne,
   fun f1 f2 m hf1 hf2 hfc => compute_hash_congr hasher f1 f2 m (hf1.trans hf2.symm) hfc⟩

/-- Witness for C1 at a concrete directory: `a` and `b` share their 3-byte
content, `c` differs. -/
theorem C1_witness :
    ∃ groups, find_duplicates hasher0 [entryA, entryB, entryC] = Except.ok groups ∧
      ∃ g ∈ groups, entryA.file ∈ g ∧ entryB.file ∈ g :=
  (C1_identical_content_same_group hasher0 [entryA, entryB, entryC] entryA entryB
    (by decide) (by decide) (by decide) rfl rfl rfl rfl rfl (by decide)).1

/-- **C2**: no group with fewer than 2 members survives any phase: the
size classifier only returns size groups of at least 2 files, a Step-A
subgroup with fewer than 2 members is dropped before any full hashing,
and every emitted DuplicateGroup has at least 2 members. -/
theorem C2_singleton_pruning :
    (∀ (entries : List DirEntry) (sgs : List (Nat × List FileEntry)),
        group_by_size entries = Except.ok sgs → ∀ sg ∈ sgs, 2 ≤ sg.2.length) ∧
    (∀ (hasher : List Nat → Nat) (cands : List FileEntry), cands.length < 2 →
        refineCandidates hasher cands = []) ∧
    (∀ (hasher : List Nat → Nat) (entries : List DirEntry) (groups : List (List FileEntry)),
        find_duplicates hasher entries = Except.ok groups → ∀ g ∈ groups, 2 ≤ g.length) := by
  refine ⟨?_, ?_, ?_⟩
  · intro entries sgs hok sg hsg
    obtain ⟨files, _, rfl⟩ := group_by_size_inv entries sgs hok
    exact (sizeGroup_members files sg hsg).2
  · intro hasher cands hlt
    unfold refineCandidates
    rw [if_pos hlt]
  · intro hasher entries groups hok g hg
    exact (find_duplicates_group_origin hasher entries groups hok g hg).1

/-- Witness for C2 at concrete inputs. -/
theorem C2_witness :
    2 ≤ ((3 : Nat), [fileA, fileB]).2.length ∧
    refineCandidates hasher0 [fileA] = [] ∧
    2 ≤ [fileA, fileB].length :=
  ⟨C2_singleton_pruning.1 [entryA, entryB] [(3, [fileA, fileB])] (by decide)
      (3, [fileA, fileB]) (by decide),
   C2_singleton_pruning.2.1 hasher0 [fileA] (by decide),
   C2_singleton_pruning.2.2 hasher0 [entryA, entryB] [[fileA, fileB]] (by decide)
      [fileA, fileB] (by decide)⟩

/-- **C3**: all members of any emitted DuplicateGroup have identical byte
size. -/
theorem C3_same_size_in_group (hasher : List Nat → Nat) (entries : List DirEntry)
    (groups : List (List FileEntry))
    (hok : find_duplicates hasher entries = Except.ok groups) :
    ∀ g ∈ groups, ∀ f1 ∈ g, ∀ f2 ∈ g, sizeKey f1 = sizeKey f2 := by
  intro g hg f1 hf1 f2 hf2
  obtain ⟨-, -, s, hs⟩ := find_duplicates_group_origin hasher entries groups hok g hg
  rw [hs f1 hf1, hs f2 hf2]

/-- Witness for C3 at a concrete directory. -/
theorem C3_witness : sizeKey fileA = sizeKey fileB :=
  C3_same_size_in_group hasher0 [entryA, entryB] [[fileA, fileB]] (by decide)
    [fileA, fileB] (by decide) fileA (by decide) fileB (by decide)

/-- **C4**: for an emitted group of `n` files each of size `s`, the
reported wasted space is `s * (n - 1)` (in the program's 64-bit unsigned
arithmetic, hence exactly whenever the product fits), and the reported
total is the sum of the per-group wasted values (mod 2^64, hence exactly
whenever the sum fits). -/
theorem C4_wasted_arithmetic (hasher : List Nat → Nat) (entries : List DirEntry)
    (groups : List (List FileEntry))
    (hok : find_duplicates hasher entries = Except.ok groups) :
    (∀ g ∈ groups, ∀ s : Nat, (∀ f ∈ g, sizeKey f = s) →
        s * (g.length - 1) < U64MOD → wastedOf g = s * (g.length - 1)) ∧
    totalWasted groups = (groups.map wastedOf).sum % U64MOD ∧
    ((groups.map wastedOf).sum < U64MOD →
        totalWasted groups = (groups.map wastedOf).sum) := by
  refine ⟨?_, totalWasted_eq_sum_mod groups, ?_⟩
  · intro g hg s hall hlt
    have h2 := (find_duplicates_group_origin hasher entries groups hok g hg).1
    have hne : g ≠ [] := by
      intro hnil
      rw [hnil] at h2
      simp at h2
    unfold wastedOf
    rw [firstSize_of_all g s hne hall]
    exact Nat.mod_eq_of_lt hlt
  · intro hlt
    rw [totalWasted_eq_sum_mod groups]
    exact Nat.mod_eq_of_lt hlt

/-- Witness for C4: the sample duplicate pair of 3-byte files wastes
`3 * (2 - 1)` bytes. -/
theorem C4_witness :
    wastedOf [fileA, fileB] = 3 * ([fileA, fileB].length - 1) ∧
    totalWasted [[fileA, fileB]] = ([[fileA, fileB]].map wastedOf).sum :=
  ⟨(C4_wasted_arithmetic hasher0 [entryA, entryB] [[fileA, fileB]] (by decide)).1
      [fileA, fileB] (by decide) 3 (by decide) (by decide),
   (C4_wasted_arithmetic hasher0 [entryA, entryB] [[fileA, fileB]] (by decide)).2.2
      (by decide)⟩

/-- **C5**: with a positive byte limit the fingerprint is the fingerprint
of exactly the first `limit` bytes (all of the file when it is shorter),
with limit 0 the whole content is hashed, and the bounded step uses
limit 4096 (`PARTIAL_READ_SIZE`). -/
theorem C5_byte_limit (hasher : List Nat → Nat) (f : FileEntry) (L : Nat) :
    (0 < L → compute_hash hasher f L =
        compute_hash hasher ⟨f.path, f.openable, f.content.take L⟩ 0) ∧
    (L ≤ f.content.length → (f.content.take L).length = L) ∧
    (f.content.length ≤ L → f.content.take L = f.content) ∧
    head_hash hasher f = compute_hash hasher f 4096 := by
  refine ⟨fun hL => compute_hash_take hasher f L hL, ?_,
    fun h => List.take_of_length_le h, rfl⟩
  intro h
  rw [List.length_take]
  omega

/-- Witness for C5 at a concrete file and limits 2 and 4096. -/
theorem C5_witness :
    compute_hash hasher0 fileA 2 =
      compute_hash hasher0 ⟨fileA.path, fileA.openable, fileA.content.take 2⟩ 0 ∧
    (fileA.content.take 2).length = 2 ∧
    fileA.content.take 4096 = fileA.content :=
  ⟨(C5_byte_limit hasher0 fileA 2).1 (by decide),
   (C5_byte_limit hasher0 fileA 2).2.1 (by decide),
   (C5_byte_limit hasher0 fileA 4096).2.2.1 (by decide)⟩

/-- **C6**: a zero-byte (and openable) file fingerprints to the all-zeros
32-hex-character string (both accumulators untouched) for any byte limit;
that fingerprint is comparable like any other, so a directory of exactly
two zero-byte files yields exactly one DuplicateGroup holding both, with
wasted space 0. -/
theorem C6_zero_byte_files (hasher : List Nat → Nat) (m : Nat) (f : FileEntry)
    (p1 p2 : String) (hopen : f.openable = true) (hempty : f.content = [])
    (_hne : p1 ≠ p2) :
    compute_hash hasher f m = String.mk (List.replicate 32 '0') ∧
    find_duplicates hasher
        [⟨⟨p1, true, []⟩, true, false, false⟩, ⟨⟨p2, true, []⟩, true, false, false⟩] =
      Except.ok [[⟨p1, true, []⟩, ⟨p2, true, []⟩]] ∧
    wastedOf [⟨p1, true, []⟩, ⟨p2, true, []⟩] = 0 := by
  refine ⟨?_, ?_, rfl⟩
  · unfold compute_hash hashLoop
    rw [if_pos (by rw [hopen]), hempty]
    rfl
  · exact find_duplicates_pair hasher
      ⟨⟨p1, true, []⟩, true, false, false⟩ ⟨⟨p2, true, []⟩, true, false, false⟩
      rfl rfl rfl rfl rfl rfl rfl

/-- Witness for C6 at concrete paths. -/
theorem C6_witness :
    compute_hash hasher0 ⟨"dir/empty", true, []⟩ 0 = String.mk (List.replicate 32 '0') ∧
    find_duplicates hasher0
        [⟨⟨"dir/e1", true, []⟩, true, false, false⟩,
         ⟨⟨"dir/e2", true, []⟩, true, false, false⟩] =
      Except.ok [[⟨"dir/e1", true, []⟩, ⟨"dir/e2", true, []⟩]] ∧
    wastedOf [⟨"dir/e1", true, []⟩, ⟨"dir/e2", true, []⟩] = 0 :=
  C6_zero_byte_files hasher0 0 ⟨"dir/empty", true, []⟩ "dir/e1" "dir/e2" rfl rfl (by decide)

/-- **C7**: a file that cannot be opened fingerprints to the empty-string
sentinel (no crash), joins no Step-A group and no DuplicateGroup, and its
presence does not stop two other identical openable files from forming a
duplicate group that excludes it. -/
theorem C7_unopenable_excluded (hasher : List Nat → Nat) (f : FileEntry)
    (hf : f.openable = false) :
    (∀ m, compute_hash hasher f m = "") ∧
    (∀ paths, ∀ pg ∈ headGroupsOf hasher paths, f ∉ pg.2) ∧
    (∀ entries groups, find_duplicates hasher entries = Except.ok groups →
        ∀ g ∈ groups, f ∉ g) ∧
    (∀ (entries : List DirEntry) (e1 e2 : DirEntry),
        (∀ e ∈ entries, e.statError = false) → e1 ∈ entries → e2 ∈ entries →
        e1.isRegularFile = true → e2.isRegularFile = true →
        e1.file.openable = true → e2.file.openable = true →
        e1.file.content = e2.file.content → e1.file ≠ e2.file →
        ∃ groups, find_duplicates hasher entries = Except.ok groups ∧
          ∃ g ∈ groups, e1.file ∈ g ∧ e2.file ∈ g ∧ f ∉ g) := by
  refine ⟨fun m => compute_hash_not_openable hasher f m hf, ?_, ?_, ?_⟩
  · intro paths pg hpg
    exact headGroupsOf_not_openable hasher paths pg hpg f hf
  · intro entries groups hok g hg hmem
    have hopen := (find_duplicates_group_origin hasher entries groups hok g hg).2.1 f hmem
    rw [hf] at hopen
    exact Bool.false_ne_true hopen
  · intro entries e1 e2 hscan h1 h2 hr1 hr2 ho1 ho2 hc hne
    obtain ⟨groups, hok, g, hg, hg1, hg2⟩ :=
      pipeline_pair_mem hasher entries e1 e2 hscan h1 h2 hr1 hr2 ho1 ho2 hc hne
    refine ⟨groups, hok, g, hg, hg1, hg2, ?_⟩
    intro hmem
    have hopen := (find_duplicates_group_origin hasher entries groups hok g hg).2.1 f hmem
    rw [hf] at hopen
    exact Bool.false_ne_true hopen

/-- Witness for C7: the locked same-size file is skipped while `a` and
`b` still pair up. -/
theorem C7_witness :
    compute_hash hasher0 fileU 0 = "" ∧
    (∃ groups, find_duplicates hasher0 [entryA, entryB, entryU] = Except.ok groups ∧
        ∃ g ∈ groups, entryA.file ∈ g ∧ entryB.file ∈ g ∧ fileU ∉ g) :=
  ⟨(C7_unopenable_excluded hasher0 fileU rfl).1 0,
   (C7_unopenable_excluded hasher0 fileU rfl).2.2.2 [entryA, entryB, entryU] entryA entryB
      (by decide) (by decide) (by decide) rfl rfl rfl rfl rfl (by decide)⟩

/-- **C8 counterexample**: with an entry whose stat/traversal throws, the
size-classification phase aborts (`Except.error`) instead of skipping the
entry; the same directory without that entry classifies fine, so the
entry was not merely skipped. -/
theorem C8_counterexample :
    group_by_size [entryBad, entryA, entryB] = Except.error () ∧
    group_by_size [entryA, entryB] = Except.ok [(3, [fileA, fileB])] :=
  ⟨by decide, by decide⟩

/-- **C8 (amended)**: a stat/traversal error on any entry is fatal to the
whole size-classification phase — `group_by_size` propagates the
exception exactly when some entry has a traversal error; no entry is
skipped. -/
theorem C8_traversal_error_fatal (entries : List DirEntry) :
    group_by_size entries = Except.error () ↔ ∃ e ∈ entries, e.statError = true :=
  group_by_size_error_iff entries

/-- **C9 counterexample**: a symlink whose target is a regular file
(`is_symlink()` true, `entry.is_regular_file()` true because it follows
the link) does appear in a size group, contrary to the claim that
symbolic links never appear in any size group. -/
theorem C9_counterexample :
    entrySym.isSymlink = true ∧
    group_by_size [entrySym, entryReal] =
      Except.ok [(1, [entrySym.file, entryReal.file])] :=
  ⟨rfl, by decide⟩

/-- **C9 (amended)**: the size classifier enumerates exactly the entries
for which `entry.is_regular_file()` is true — a check that follows
symbolic links, so directories, special files and dangling symlinks are
excluded but a symlink to a regular file is included — and partitions
exactly those by size (before singleton pruning). -/
theorem C9_regular_file_partition (entries : List DirEntry)
    (h : ∀ e ∈ entries, e.statError = false) :
    scanRegulars entries =
      Except.ok ((entries.filter (fun e => e.isRegularFile)).map (fun e => e.file)) ∧
    (∀ sgs, group_by_size entries = Except.ok sgs →
        ∀ sg ∈ sgs, ∀ f ∈ sg.2, ∃ e ∈ entries, e.isRegularFile = true ∧ e.file = f) ∧
    (∀ e ∈ entries, e.isRegularFile = true →
        ∃ p ∈ groupPairsBy sizeKey
            ((entries.filter (fun e => e.isRegularFile)).map (fun e => e.file)),
          e.file ∈ p.2) := by
  refine ⟨scanRegulars_ok entries h, ?_, ?_⟩
  · intro sgs hok sg hsg f hf
    obtain ⟨files, hscanok, rfl⟩ := group_by_size_inv entries sgs hok
    rw [scanRegulars_ok entries h] at hscanok
    injection hscanok with hfiles
    subst hfiles
    have hmem := ((sizeGroup_members _ sg hsg).1 f hf).1
    obtain ⟨e, he, hef⟩ := List.mem_map.mp hmem
    have he' := List.mem_filter.mp he
    exact ⟨e, he'.1, by simpa using he'.2, hef⟩
  · intro e he hr
    have hf : e.file ∈ (entries.filter (fun e => e.isRegularFile)).map (fun e => e.file) :=
      List.mem_map.mpr ⟨e, List.mem_filter.mpr ⟨he, by simp [hr]⟩, rfl⟩
    exact ⟨(sizeKey e.file, _), mem_groupPairsBy_self sizeKey _ e.file hf,
      mem_filter_key_self sizeKey _ e.file hf⟩

/-- Witness for the amended C9: the symlink-to-regular-file entry lands in
the size partition. -/
theorem C9_witness :
    ∃ p ∈ groupPairsBy sizeKey
        (([entrySym, entryReal].filter (fun e => e.isRegularFile)).map (fun e => e.file)),
      entrySym.file ∈ p.2 :=
  (C9_regular_file_partition [entrySym, entryReal] (by decide)).2.2 entrySym (by decide) rfl

/-- **C10**: for an openable file of at most 4096 bytes the bounded hash
equals the full hash (both read the same single chunk and print the same
32-hex-character string), so the full-hash step cannot split two such
files that agreed on the bounded hash. -/
theorem C10_small_file_hashes_agree (hasher : List Nat → Nat) (f1 f2 : FileEntry)
    (hlen1 : f1.content.length ≤ 4096) (ho1 : f1.openable = true)
    (hlen2 : f2.content.length ≤ 4096) (_ho2 : f2.openable = true) :
    head_hash hasher f1 = full_hash hasher f1 ∧
    (head_hash hasher f1).length = 32 ∧
    (head_hash hasher f1 = head_hash hasher f2 →
        full_hash hasher f1 = full_hash hasher f2) := by
  refine ⟨head_hash_eq_full_of_small hasher f1 hlen1,
    compute_hash_length hasher f1 4096 ho1, ?_⟩
  intro heq
  rw [← head_hash_eq_full_of_small hasher f1 hlen1,
    ← head_hash_eq_full_of_small hasher f2 hlen2]
  exact heq

/-- Witness for C10 at the sample 3-byte files. -/
theorem C10_witness :
    head_hash hasher0 fileA = full_hash hasher0 fileA ∧
    full_hash hasher0 fileA = full_hash hasher0 fileB :=
  ⟨(C10_small_file_hashes_agree hasher0 fileA fileB (by decide) rfl (by decide) rfl).1,
   (C10_small_file_hashes_agree hasher0 fileA fileB (by decide) rfl (by decide) rfl).2.2
      (by decide)⟩
